import Mathlib

/-!
Verification of the pictopy media-indexing core (src/modules.py): a shallow
embedding of the Scanner / Hasher / Indexer / Store / Reconciler pipeline, and
theorems settling the specification claims about it.

The filesystem is modelled as a function from paths to `Option (List Nat)`:
`some bytes` is a readable regular file with that byte content, `none` is a
path whose open-for-read raises an I/O error (missing file, unreadable file,
or a directory).  `hashlib.md5(data).hexdigest()` is a pure deterministic
function of the bytes, so the development is parametric in a digest function
`md5 : List Nat → String`.
-/

namespace Pictopy

/-- Filesystem model: path to readable byte content, `none` on read error. -/
abbrev FileSys := String → Option (List Nat)

/-- The content digest function (md5 hexdigest), abstract but pure. -/
abbrev Digest := List Nat → String

/-- Index of the last occurrence of `c` in `cs`, if any. -/
def lastIdxOf : List Char → Char → Option Nat
  | [], _ => none
  | a :: rest, c =>
    match lastIdxOf rest c with
    | some i => some (i + 1)
    | none => if a = c then some 0 else none

/-- `os.path.splitext(p)[1]`: the extension of `p`, i.e. the suffix starting at
the last dot of the final path component, provided some character of that
component strictly before the dot is not itself a dot (so dotfiles like
`.png` have no extension).  Follows CPython genericpath._splitext with
sep = `/`, extsep = `.`. -/
def splitextExt (p : String) : String :=
  let cs := p.data
  match lastIdxOf cs (Char.ofNat 46) with
  | none => ""
  | some d =>
    let f : Nat := match lastIdxOf cs (Char.ofNat 47) with
      | none => 0
      | some s => s + 1
    if f ≤ d ∧ ((cs.drop f).take (d - f)).any (fun ch => ch ≠ Char.ofNat 46) then
      String.mk (cs.drop d)
    else ""

/-- The fixed extension allow-list of `isImg` (src/modules.py line 50). -/
def imgExts : List String := [".jpg", ".jpeg", ".png", ".webp", ".bmp", ".avif"]

/-- Python str.lower(): lowercase the string character by character. -/
def strLower (s : String) : String :=
  String.mk (s.data.map Char.toLower)

/-- `isImg` (src/modules.py lines 39-51): the lowercased extension of the path
is in the allow-list.  Inspects only the path text, never the content. -/
def isImg (filePath : String) : Bool :=
  imgExts.contains (strLower (splitextExt filePath))

/-- `genHash` (src/modules.py lines 9-22): read the full byte content and hash
it; `none` models the propagated I/O exception when the read fails. -/
def genHash (fs : FileSys) (md5 : Digest) (imgPath : String) : Option String :=
  (fs imgPath).map md5

/-- `classifyImg` (src/modules.py lines 25-36): the classifier stub, a
constant label for every input. -/
def classifyImg (_imgPath : String) : String :=
  "thing"

/-- `imgPaths` (src/modules.py lines 76-88).  `tree` models the sequence the
recursive glob of the start path yields (every file and directory below the
root, in filesystem order); the generator yields exactly the `isImg` ones. -/
def imgPaths (tree : List String) : List String :=
  tree.filter isImg

/-- Result of one `detectFileWithHash` call on a generator: a found path
together with the unconsumed remainder of the generator, exhaustion, or a
propagated read error from `genHash`. -/
inductive DetectResult where
  | found (p : String) (rest : List String)
  | notFound
  | ioError
deriving DecidableEq, Repr

/-- `detectFileWithHash` (src/modules.py lines 54-71): scan the generator,
skipping non-image paths, hashing each candidate, returning the first path
whose hash equals the target; the generator is consumed destructively, so a
found result also carries the remaining (unconsumed) list. -/
def detectFileWithHash (fs : FileSys) (md5 : Digest) :
    List String → String → DetectResult
  | [], _ => .notFound
  | file :: rest, targetHash =>
    if isImg file then
      match genHash fs md5 file with
      | none => .ioError
      | some fileHash =>
        if fileHash = targetHash then .found file rest
        else detectFileWithHash fs md5 rest targetHash
    else detectFileWithHash fs md5 rest targetHash

/-- The `media` table: rows of (hash, imageClass), in insertion order. -/
abbrev DB := List (String × String)

/-- `hashExist` (src/modules.py lines 163-176): membership of a hash in the
`media` table, modelled at the level of table semantics. -/
def hashExist (db : DB) (hashValue : String) : Bool :=
  db.any (fun r => r.1 = hashValue)

/-- The effect of `INSERT OR REPLACE INTO media(hash, imageClass)` with
`hash` the primary key: the conflicting row, if any, is deleted and the new
row inserted (at the end, as a fresh row). -/
def insertOrReplace (db : DB) (h c : String) : DB :=
  db.filter (fun r => r.1 ≠ h) ++ [(h, c)]

/-- A single quote character, used by the raw query text the store layer
builds by string interpolation. -/
def sq : String := (Char.ofNat 39).toString

/-- The exact query text `processImgs` interpolates (src/modules.py line 106):
INSERT OR REPLACE INTO media(hash, imageClass) VALUES( then the raw hash and
class values, each wrapped in single quotes and separated by a comma. -/
def insertQuery (imgHash imgClass : String) : String :=
  "INSERT OR REPLACE INTO media(hash, imageClass) VALUES(" ++
    sq ++ imgHash ++ sq ++ ", " ++ sq ++ imgClass ++ sq ++ ")"

/-- The exact query text `hashExist` interpolates (src/modules.py line 174):
SELECT EXISTS(SELECT 1 FROM media WHERE hash= then the raw value in single
quotes. -/
def hashExistQuery (hashValue : String) : String :=
  "SELECT EXISTS(SELECT 1 FROM media WHERE hash=" ++ sq ++ hashValue ++ sq ++ ")"

/-- Outcome of one indexing pass: the final table on success, or the table as
it stood when a read error aborted the pass. -/
inductive RunResult where
  | ok (db : DB)
  | ioError (db : DB)
deriving DecidableEq, Repr

/-- The table state a run result carries. -/
def RunResult.db : RunResult → DB
  | .ok db => db
  | .ioError db => db

/-- `processImgs` (src/modules.py lines 91-107): for each path, skip
non-images; hash (a read failure propagates, aborting the pass with the table
as accumulated so far); skip hashes already present; otherwise classify and
insert-or-replace. -/
def processImgs (fs : FileSys) (md5 : Digest) (db : DB) :
    List String → RunResult
  | [] => .ok db
  | file :: rest =>
    if isImg file then
      match genHash fs md5 file with
      | none => .ioError db
      | some imgHash =>
        if hashExist db imgHash then processImgs fs md5 db rest
        else processImgs fs md5 (insertOrReplace db imgHash (classifyImg file)) rest
    else processImgs fs md5 db rest

/-- The transient class-to-paths mapping: a Python dict in insertion order,
keys unique. -/
abbrev ClassDict := List (String × List String)

/-- `imageClass in classDict`. -/
def dictHasKey (d : ClassDict) (k : String) : Bool :=
  d.any (fun e => e.1 = k)

/-- The `if imageClass not in classDict: classDict[imageClass] = []` step:
insert the key with an empty list at the end if absent. -/
def dictEnsureKey (d : ClassDict) (k : String) : ClassDict :=
  if dictHasKey d k then d else d ++ [(k, [])]

/-- The `classDict[imageClass].append(filePath)` step: append `p` to the list
stored under `k`. -/
def dictAppend (d : ClassDict) (k : String) (p : String) : ClassDict :=
  d.map (fun e => if e.1 = k then (e.1, e.2 ++ [p]) else e)

/-- The loop body of `fileByClass` (src/modules.py lines 193-199), threading
the destructively consumed file generator through successive
`detectFileWithHash` calls; `none` models a propagated read error. -/
def fileByClassAux (fs : FileSys) (md5 : Digest) (files : List String)
    (acc : ClassDict) : List (String × String) → Option ClassDict
  | [] => some acc
  | (imageClass, hashValue) :: rows =>
    let acc1 := dictEnsureKey acc imageClass
    match detectFileWithHash fs md5 files hashValue with
    | .ioError => none
    | .notFound => fileByClassAux fs md5 [] acc1 rows
    | .found p rest => fileByClassAux fs md5 rest (dictAppend acc1 imageClass p) rows

/-- `fileByClass` (src/modules.py lines 179-200).  `rows` is the result of
SELECT imageClass, hash FROM media - the full table in whatever order the
store returns it (insertion order not guaranteed); `files` is the freshly
re-obtained traversal, consumed destructively across all lookups. -/
def fileByClass (fs : FileSys) (md5 : Digest) (rows : List (String × String))
    (files : List String) : Option ClassDict :=
  fileByClassAux fs md5 files [] rows

/-- One possible order for SELECT imageClass, hash FROM media: insertion
order of the table rows. -/
def selectImageClassHash (db : DB) : List (String × String) :=
  db.map (fun r => (r.2, r.1))

/-- All file paths occurring in a class dictionary, across all labels. -/
def dictPaths (d : ClassDict) : List String :=
  (d.map Prod.snd).flatten

/-- Path `p` is resolved under label `c` in the dictionary `d`. -/
def dictMem (d : ClassDict) (c p : String) : Prop :=
  ∃ e ∈ d, e.1 = c ∧ p ∈ e.2

instance (d : ClassDict) (c p : String) : Decidable (dictMem d c p) := by
  unfold dictMem
  infer_instance

/-- A concrete two-file filesystem used as test input: two readable image
files with distinct one-byte contents. -/
def fsC : FileSys := fun p =>
  if p = "/r/a.png" then some [0] else if p = "/r/b.png" then some [1] else none

/-- A concrete digest function for test inputs, injective on the contents
that occur in them. -/
def md5C : Digest := fun l =>
  if l = [0] then "h0" else if l = [1] then "h1" else "hx"

/-- A concrete filesystem with one readable image file; every other path
(in particular the directory-named-like-an-image path used below) fails to
read. -/
def fsD : FileSys := fun p =>
  if p = "/r/a.png" then some [0] else none

/-- C4: the store layer builds query text by raw string interpolation, never
binding values.  Two different (hash, label) pairs, each containing a quote
character, produce the identical INSERT query text, so the issued query does
not determine the pair that was to be recorded: the quoted value escapes its
literal and leaks into the neighbouring value position.  This refutes the
claimed injection safety of upsert at a concrete input. -/
theorem c4_interpolated_insert_not_injective :
    insertQuery ("A" ++ sq ++ ", " ++ sq ++ "B") "C" =
      insertQuery "A" ("B" ++ sq ++ ", " ++ sq ++ "C") ∧
    ("A" ++ sq ++ ", " ++ sq ++ "B", "C") ≠ ("A", "B" ++ sq ++ ", " ++ sq ++ "C") := by
  constructor
  · rfl
  · decide

/-- C7: the Scanner yields a path iff that path occurs in the traversal and
its extension, lowercased, is in the fixed allow-list; in particular a path
whose extension is outside the allow-list is never yielded.  The test reads
only the path text - the filesystem content is not an input of `imgPaths` at
all, so the result is independent of any file content. -/
theorem c7_scanner_yields_iff_allow_listed (tree : List String) (p : String) :
    p ∈ imgPaths tree ↔ p ∈ tree ∧ strLower (splitextExt p) ∈ imgExts := by
  unfold imgPaths isImg
  rw [List.mem_filter]
  exact and_congr_right fun _ => List.elem_iff

/-- Witness for C7 at a concrete traversal: a txt path is in the tree but not
yielded, while a png path is yielded. -/
theorem c7_witness :
    ("/r/b.txt" ∉ imgPaths ["/r/a.png", "/r/b.txt"]) ∧
    ("/r/a.png" ∈ imgPaths ["/r/a.png", "/r/b.txt"]) := by
  constructor
  · intro hmem
    have h := (c7_scanner_yields_iff_allow_listed ["/r/a.png", "/r/b.txt"] "/r/b.txt").mp hmem
    exact absurd h.2 (by decide)
  · exact (c7_scanner_yields_iff_allow_listed ["/r/a.png", "/r/b.txt"] "/r/a.png").mpr
      ⟨by decide, by decide⟩

/-- Helper: a found result decomposes the scanned list - the found path is
the first image file in the list whose hash equals the target, and the
returned remainder is exactly the part of the list after it. -/
theorem detectFileWithHash_found_decomp (fs : FileSys) (md5 : Digest) :
    ∀ (files : List String) (t p : String) (rest : List String),
    detectFileWithHash fs md5 files t = .found p rest →
    ∃ pre, files = pre ++ p :: rest ∧ isImg p = true ∧ genHash fs md5 p = some t ∧
      ∀ q ∈ pre, isImg q = true → genHash fs md5 q ≠ some t := by
  intro files
  induction files with
  | nil => intro t p rest h; simp [detectFileWithHash] at h
  | cons f fl ih =>
    intro t p rest h
    by_cases himg : isImg f = true
    · cases hfs : fs f with
      | none => simp [detectFileWithHash, genHash, himg, hfs] at h
      | some b =>
        by_cases heq : md5 b = t
        · simp [detectFileWithHash, genHash, himg, hfs, heq] at h
          obtain ⟨h1, h2⟩ := h
          subst h1; subst h2
          refine ⟨[], rfl, himg, ?_, by simp⟩
          simp [genHash, hfs, heq]
        · simp [detectFileWithHash, genHash, himg, hfs, heq] at h
          obtain ⟨pre, hfl, hpimg, hpg, hpre⟩ := ih t p rest h
          refine ⟨f :: pre, by simp [hfl], hpimg, hpg, ?_⟩
          intro q hq hqimg
          rcases List.mem_cons.mp hq with hqf | hqpre
          · subst hqf
            simp [genHash, hfs]
            exact heq
          · exact hpre q hqpre hqimg
    · simp [detectFileWithHash, himg] at h
      obtain ⟨pre, hfl, hpimg, hpg, hpre⟩ := ih t p rest h
      refine ⟨f :: pre, by simp [hfl], hpimg, hpg, ?_⟩
      intro q hq hqimg
      rcases List.mem_cons.mp hq with hqf | hqpre
      · subst hqf; exact absurd hqimg himg
      · exact hpre q hqpre hqimg

/-- Helper: scanning a list whose image entries are all readable never raises
a read error. -/
theorem detectFileWithHash_ne_ioError (fs : FileSys) (md5 : Digest) :
    ∀ (files : List String) (t : String),
    (∀ f ∈ files, isImg f = true → (fs f).isSome = true) →
    detectFileWithHash fs md5 files t ≠ .ioError := by
  intro files
  induction files with
  | nil => intro t _ h; simp [detectFileWithHash] at h
  | cons f fl ih =>
    intro t hread h
    by_cases himg : isImg f = true
    · cases hfs : fs f with
      | none =>
        have := hread f (by simp) himg
        rw [hfs] at this
        simp at this
      | some b =>
        by_cases heq : md5 b = t
        · simp [detectFileWithHash, genHash, himg, hfs, heq] at h
        · simp [detectFileWithHash, genHash, himg, hfs, heq] at h
          exact ih t (fun q hq => hread q (List.mem_cons_of_mem f hq)) h
    · simp [detectFileWithHash, himg] at h
      exact ih t (fun q hq => hread q (List.mem_cons_of_mem f hq)) h

/-- Helper: if some readable image file in the list hashes to the target,
the scan returns a found result. -/
theorem detectFileWithHash_found_of_match (fs : FileSys) (md5 : Digest) :
    ∀ (files : List String) (t : String),
    (∀ f ∈ files, isImg f = true → (fs f).isSome = true) →
    (∃ f ∈ files, isImg f = true ∧ genHash fs md5 f = some t) →
    ∃ p rest, detectFileWithHash fs md5 files t = .found p rest := by
  intro files
  induction files with
  | nil => intro t _ hm; simp at hm
  | cons f fl ih =>
    intro t hread hm
    by_cases himg : isImg f = true
    · cases hfs : fs f with
      | none =>
        have := hread f (by simp) himg
        rw [hfs] at this
        simp at this
      | some b =>
        by_cases heq : md5 b = t
        · exact ⟨f, fl, by simp [detectFileWithHash, genHash, himg, hfs, heq]⟩
        · have hstep : detectFileWithHash fs md5 (f :: fl) t =
              detectFileWithHash fs md5 fl t := by
            simp [detectFileWithHash, genHash, himg, hfs, heq]
          rw [hstep]
          apply ih t (fun q hq => hread q (List.mem_cons_of_mem f hq))
          obtain ⟨g, hg1, hg2, hg3⟩ := hm
          rcases List.mem_cons.mp hg1 with hgf | hgfl
          · subst hgf
            rw [genHash, hfs] at hg3
            exact absurd (by injection hg3) heq
          · exact ⟨g, hgfl, hg2, hg3⟩
    · have hstep : detectFileWithHash fs md5 (f :: fl) t =
          detectFileWithHash fs md5 fl t := by
        simp [detectFileWithHash, himg]
      rw [hstep]
      apply ih t (fun q hq => hread q (List.mem_cons_of_mem f hq))
      obtain ⟨g, hg1, hg2, hg3⟩ := hm
      rcases List.mem_cons.mp hg1 with hgf | hgfl
      · subst hgf; exact absurd hg2 himg
      · exact ⟨g, hgfl, hg2, hg3⟩

/-- Helper: ensuring a key adds no path to the dictionary. -/
theorem dictPaths_dictEnsureKey (d : ClassDict) (k : String) :
    dictPaths (dictEnsureKey d k) = dictPaths d := by
  unfold dictEnsureKey
  split
  · rfl
  · unfold dictPaths; simp

/-- Helper: a path in some entry of the dictionary is among the dictionary
paths. -/
theorem mem_dictPaths_of_entry (d : ClassDict) (c : String) (l : List String)
    (q : String) (h1 : (c, l) ∈ d) (h2 : q ∈ l) : q ∈ dictPaths d := by
  unfold dictPaths
  rw [List.mem_flatten]
  exact ⟨l, List.mem_map.mpr ⟨(c, l), h1, rfl⟩, h2⟩

/-- Helper: a path of the dictionary after an append step is the appended
path or was already present. -/
theorem mem_dictPaths_dictAppend (d : ClassDict) (k p q : String)
    (h : q ∈ dictPaths (dictAppend d k p)) : q = p ∨ q ∈ dictPaths d := by
  unfold dictPaths at h ⊢
  unfold dictAppend at h
  rw [List.mem_flatten] at h
  obtain ⟨l, hl, hql⟩ := h
  rw [List.map_map, List.mem_map] at hl
  obtain ⟨e, he, hel⟩ := hl
  by_cases hek : e.1 = k
  · simp only [Function.comp, if_pos hek] at hel
    rw [← hel] at hql
    rcases List.mem_append.mp hql with hq | hq
    · right; rw [List.mem_flatten]
      exact ⟨e.2, List.mem_map.mpr ⟨e, he, rfl⟩, hq⟩
    · left; simpa using hq
  · simp only [Function.comp, if_neg hek] at hel
    subst hel
    right; rw [List.mem_flatten]
    exact ⟨e.2, List.mem_map.mpr ⟨e, he, rfl⟩, hql⟩

/-- Helper: the unfolding equation of the reconciler loop on a nonempty row
list. -/
theorem fileByClassAux_cons (fs : FileSys) (md5 : Digest) (files : List String)
    (acc : ClassDict) (c t : String) (rows : List (String × String)) :
    fileByClassAux fs md5 files acc ((c, t) :: rows) =
      match detectFileWithHash fs md5 files t with
      | .ioError => none
      | .notFound => fileByClassAux fs md5 [] (dictEnsureKey acc c) rows
      | .found p rest =>
          fileByClassAux fs md5 rest (dictAppend (dictEnsureKey acc c) c p) rows := rfl

/-- Helper: on a list whose image entries are all readable, the reconciler
loop completes without error, and every path of the result was already in
the accumulator or comes from the candidate list. -/
theorem fileByClassAux_sound (fs : FileSys) (md5 : Digest) :
    ∀ (rows : List (String × String)) (files : List String) (acc : ClassDict),
    (∀ f ∈ files, isImg f = true → (fs f).isSome = true) →
    ∃ d, fileByClassAux fs md5 files acc rows = some d ∧
      ∀ q, q ∈ dictPaths d → q ∈ dictPaths acc ∨ q ∈ files := by
  intro rows
  induction rows with
  | nil =>
    intro files acc _
    exact ⟨acc, rfl, fun q hq => Or.inl hq⟩
  | cons row rows ih =>
    intro files acc hread
    obtain ⟨c, t⟩ := row
    cases hdet : detectFileWithHash fs md5 files t with
    | ioError => exact absurd hdet (detectFileWithHash_ne_ioError fs md5 files t hread)
    | notFound =>
      obtain ⟨d, hd, hq⟩ := ih [] (dictEnsureKey acc c) (by simp)
      refine ⟨d, ?_, fun q hqd => ?_⟩
      · rw [fileByClassAux_cons, hdet]
        exact hd
      · rcases hq q hqd with h | h
        · rw [dictPaths_dictEnsureKey] at h; exact Or.inl h
        · simp at h
    | found p rest =>
      obtain ⟨pre, hfiles, hpimg, hpg, _⟩ :=
        detectFileWithHash_found_decomp fs md5 files t p rest hdet
      have hrest : ∀ f ∈ rest, isImg f = true → (fs f).isSome = true := by
        intro f hf
        exact hread f (by rw [hfiles]; simp [hf])
      obtain ⟨d, hd, hq⟩ := ih rest (dictAppend (dictEnsureKey acc c) c p) hrest
      refine ⟨d, ?_, fun q hqd => ?_⟩
      · rw [fileByClassAux_cons, hdet]
        exact hd
      · rcases hq q hqd with h | h
        · rcases mem_dictPaths_dictAppend _ _ _ _ h with h2 | h2
          · right; rw [hfiles, h2]; simp
          · rw [dictPaths_dictEnsureKey] at h2; exact Or.inl h2
        · right; rw [hfiles]; simp [h]

/-- C3: a file removed from disk (hence absent from the fresh traversal) is
absent from the reconciliation output: the run completes without error and
no list of the returned mapping contains the removed path - a stored hash
with no matching current file is silently dropped. -/
theorem c3_deleted_file_absent (fs : FileSys) (md5 : Digest)
    (rows : List (String × String)) (files : List String) (p : String)
    (hread : ∀ f ∈ files, isImg f = true → (fs f).isSome = true)
    (hp : p ∉ files) :
    ∃ d, fileByClass fs md5 rows files = some d ∧
      ∀ c l, (c, l) ∈ d → p ∉ l := by
  obtain ⟨d, hd, hq⟩ := fileByClassAux_sound fs md5 rows files [] hread
  refine ⟨d, hd, fun c l hcl hpl => ?_⟩
  rcases hq p (mem_dictPaths_of_entry d c l p hcl hpl) with h | h
  · simp [dictPaths] at h
  · exact hp h

/-- Witness for C3: with a.png deleted, its stored hash h0 resolves to no
current file and /r/a.png appears nowhere in the output. -/
theorem c3_witness :
    ∃ d, fileByClass fsC md5C [("thing", "h0")] ["/r/b.png"] = some d ∧
      ∀ c l, (c, l) ∈ d → "/r/a.png" ∉ l :=
  c3_deleted_file_absent fsC md5C [("thing", "h0")] ["/r/b.png"] "/r/a.png"
    (by decide) (by decide)

/-- Helper: Prop characterisation of table membership testing. -/
theorem hashExist_iff (db : DB) (x : String) :
    hashExist db x = true ↔ ∃ r ∈ db, r.1 = x := by
  unfold hashExist
  rw [List.any_eq_true]
  simp

/-- Helper: Prop characterisation of the rows after an insert-or-replace. -/
theorem mem_insertOrReplace_iff (db : DB) (h c : String) (r : String × String) :
    r ∈ insertOrReplace db h c ↔ (r ∈ db ∧ r.1 ≠ h) ∨ r = (h, c) := by
  unfold insertOrReplace
  rw [List.mem_append, List.mem_filter]
  simp

/-- Helper: inserting a hash that is not yet present keeps every existing row
and appends the new one at the end. -/
theorem insertOrReplace_fresh (db : DB) (h c : String)
    (hex : hashExist db h = false) :
    insertOrReplace db h c = db ++ [(h, c)] := by
  unfold insertOrReplace
  congr 1
  rw [List.filter_eq_self]
  intro r hr
  have hrh : ¬ r.1 = h := by
    intro hrh
    rw [← Bool.not_eq_true, hashExist_iff] at hex
    exact hex ⟨r, hr, hrh⟩
  simp [hrh]

/-- Helper: the unfolding equation of the indexer loop on a nonempty file
list. -/
theorem processImgs_cons (fs : FileSys) (md5 : Digest) (db : DB) (f : String)
    (rest : List String) :
    processImgs fs md5 db (f :: rest) =
      if isImg f then
        match genHash fs md5 f with
        | none => .ioError db
        | some imgHash =>
          if hashExist db imgHash then processImgs fs md5 db rest
          else processImgs fs md5 (insertOrReplace db imgHash (classifyImg f)) rest
      else processImgs fs md5 db rest := rfl

/-- Helper: a non-image path is skipped by the indexer. -/
theorem processImgs_skip (fs : FileSys) (md5 : Digest) (db : DB) (f : String)
    (rest : List String) (himg : isImg f = false) :
    processImgs fs md5 db (f :: rest) = processImgs fs md5 db rest := by
  simp [processImgs_cons, himg]

/-- Helper: an unreadable image path aborts the indexer with the current
table. -/
theorem processImgs_readError (fs : FileSys) (md5 : Digest) (db : DB) (f : String)
    (rest : List String) (himg : isImg f = true) (hfs : fs f = none) :
    processImgs fs md5 db (f :: rest) = .ioError db := by
  simp [processImgs_cons, himg, genHash, hfs]

/-- Helper: an image path whose hash is already stored is skipped. -/
theorem processImgs_dup (fs : FileSys) (md5 : Digest) (db : DB) (f : String)
    (rest : List String) (b : List Nat) (himg : isImg f = true) (hfs : fs f = some b)
    (hex : hashExist db (md5 b) = true) :
    processImgs fs md5 db (f :: rest) = processImgs fs md5 db rest := by
  simp [processImgs_cons, himg, genHash, hfs, hex]

/-- Helper: an image path with a fresh hash is classified and inserted. -/
theorem processImgs_insert (fs : FileSys) (md5 : Digest) (db : DB) (f : String)
    (rest : List String) (b : List Nat) (himg : isImg f = true) (hfs : fs f = some b)
    (hex : hashExist db (md5 b) = false) :
    processImgs fs md5 db (f :: rest) =
      processImgs fs md5 (insertOrReplace db (md5 b) (classifyImg f)) rest := by
  simp [processImgs_cons, himg, genHash, hfs, hex]

/-- Helper: the indexer pass splits over list append: the second part runs
from the state the first part reached, and an abort in the first part aborts
the whole pass. -/
theorem processImgs_append (fs : FileSys) (md5 : Digest) :
    ∀ (l1 l2 : List String) (db : DB),
    processImgs fs md5 db (l1 ++ l2) =
      match processImgs fs md5 db l1 with
      | .ok db1 => processImgs fs md5 db1 l2
      | .ioError db1 => .ioError db1 := by
  intro l1
  induction l1 with
  | nil => intro l2 db; rfl
  | cons f l1 ih =>
    intro l2 db
    by_cases himg : isImg f = true
    · cases hfs : fs f with
      | none => simp [processImgs_cons, genHash, himg, hfs]
      | some b =>
        by_cases hex : hashExist db (md5 b) = true
        · simp [processImgs_cons, genHash, himg, hfs, hex, ih]
        · simp [processImgs_cons, genHash, himg, hfs, hex, ih]
    · simp [processImgs_cons, himg, ih]

/-- Helper: a hash present in the table stays present through any indexer
pass, aborted or not. -/
theorem hashExist_processImgs_mono (fs : FileSys) (md5 : Digest) :
    ∀ (files : List String) (db : DB) (x : String),
    hashExist db x = true → hashExist (processImgs fs md5 db files).db x = true := by
  intro files
  induction files with
  | nil => intro db x h; exact h
  | cons f fl ih =>
    intro db x h
    cases himg : isImg f with
    | false =>
      rw [processImgs_skip fs md5 db f fl himg]
      exact ih db x h
    | true =>
      cases hfs : fs f with
      | none =>
        rw [processImgs_readError fs md5 db f fl himg hfs]
        exact h
      | some b =>
        cases hex : hashExist db (md5 b) with
        | true =>
          rw [processImgs_dup fs md5 db f fl b himg hfs hex]
          exact ih db x h
        | false =>
          rw [processImgs_insert fs md5 db f fl b himg hfs hex]
          apply ih
          rw [hashExist_iff] at h ⊢
          obtain ⟨r, hr, hrx⟩ := h
          refine ⟨r, ?_, hrx⟩
          rw [mem_insertOrReplace_iff]
          left
          refine ⟨hr, ?_⟩
          intro hc
          have : hashExist db (md5 b) = true := by
            rw [hashExist_iff]
            exact ⟨r, hr, hc⟩
          rw [this] at hex
          exact Bool.noConfusion hex

/-- Helper: after a successful indexer pass, every image file of the input
was readable and its hash is present in the final table. -/
theorem processImgs_ok_covers (fs : FileSys) (md5 : Digest) :
    ∀ (files : List String) (db db1 : DB),
    processImgs fs md5 db files = .ok db1 →
    ∀ f ∈ files, isImg f = true → ∃ b, fs f = some b ∧ hashExist db1 (md5 b) = true := by
  intro files
  induction files with
  | nil => intro db db1 _ f hf; simp at hf
  | cons g fl ih =>
    intro db db1 h f hf hfi
    cases himg : isImg g with
    | false =>
      rw [processImgs_skip fs md5 db g fl himg] at h
      rcases List.mem_cons.mp hf with hgf | hffl
      · subst hgf; rw [hfi] at himg; exact Bool.noConfusion himg
      · exact ih db db1 h f hffl hfi
    | true =>
      cases hfs : fs g with
      | none =>
        rw [processImgs_readError fs md5 db g fl himg hfs] at h
        exact absurd h (by simp)
      | some b =>
        cases hex : hashExist db (md5 b) with
        | true =>
          rw [processImgs_dup fs md5 db g fl b himg hfs hex] at h
          rcases List.mem_cons.mp hf with hgf | hffl
          · subst hgf
            refine ⟨b, hfs, ?_⟩
            have hm := hashExist_processImgs_mono fs md5 fl db (md5 b) hex
            rw [h] at hm
            exact hm
          · exact ih db db1 h f hffl hfi
        | false =>
          rw [processImgs_insert fs md5 db g fl b himg hfs hex] at h
          rcases List.mem_cons.mp hf with hgf | hffl
          · subst hgf
            refine ⟨b, hfs, ?_⟩
            have hex2 : hashExist (insertOrReplace db (md5 b) (classifyImg f)) (md5 b) = true := by
              rw [hashExist_iff]
              exact ⟨(md5 b, classifyImg f),
                (mem_insertOrReplace_iff _ _ _ _).mpr (Or.inr rfl), rfl⟩
            have hm := hashExist_processImgs_mono fs md5 fl
              (insertOrReplace db (md5 b) (classifyImg f)) (md5 b) hex2
            rw [h] at hm
            exact hm
          · exact ih _ db1 h f hffl hfi

/-- Helper: when every image file of the input is readable and its hash is
already present, the indexer pass succeeds without touching the table. -/
theorem processImgs_noop (fs : FileSys) (md5 : Digest) :
    ∀ (files : List String) (db : DB),
    (∀ f ∈ files, isImg f = true → ∃ b, fs f = some b ∧ hashExist db (md5 b) = true) →
    processImgs fs md5 db files = .ok db := by
  intro files
  induction files with
  | nil => intro db _; rfl
  | cons f fl ih =>
    intro db hcov
    cases himg : isImg f with
    | false =>
      rw [processImgs_skip fs md5 db f fl himg]
      exact ih db (fun q hq => hcov q (List.mem_cons_of_mem f hq))
    | true =>
      obtain ⟨b, hfs, hex⟩ := hcov f (by simp) himg
      rw [processImgs_dup fs md5 db f fl b himg hfs hex]
      exact ih db (fun q hq => hcov q (List.mem_cons_of_mem f hq))

/-- C5: the indexer is idempotent - a second pass over the same unchanged
input, starting from the table the first (successful) pass produced, changes
nothing: it returns the table it started from, row for row. -/
theorem c5_indexer_idempotent (fs : FileSys) (md5 : Digest) (db0 db1 : DB)
    (files : List String)
    (h1 : processImgs fs md5 db0 files = .ok db1) :
    processImgs fs md5 db1 files = .ok db1 :=
  processImgs_noop fs md5 files db1
    (fun f hf hfi => processImgs_ok_covers fs md5 files db0 db1 h1 f hf hfi)

/-- Witness for C5 at a concrete two-file input: the second pass returns the
first pass table unchanged. -/
theorem c5_witness :
    processImgs fsC md5C [("h0", "thing"), ("h1", "thing")] ["/r/a.png", "/r/b.png"] =
      .ok [("h0", "thing"), ("h1", "thing")] :=
  c5_indexer_idempotent fsC md5C [] [("h0", "thing"), ("h1", "thing")]
    ["/r/a.png", "/r/b.png"] (by decide)

/-- Helper: a table whose hashes are distinct assigns at most one label per
hash. -/
theorem keys_nodup_unique_label :
    ∀ (db : DB) (h c c2 : String),
    (db.map Prod.fst).Nodup → (h, c) ∈ db → (h, c2) ∈ db → c2 = c := by
  intro db
  induction db with
  | nil => intro h c c2 _ h1; simp at h1
  | cons r rl ih =>
    intro h c c2 hnd h1 h2
    rw [List.map_cons, List.nodup_cons] at hnd
    rcases List.mem_cons.mp h1 with hr1 | hm1 <;> rcases List.mem_cons.mp h2 with hr2 | hm2
    · rw [← hr1] at hr2
      simpa using hr2
    · exfalso
      apply hnd.1
      rw [← hr1]
      exact List.mem_map.mpr ⟨(h, c2), hm2, rfl⟩
    · exfalso
      apply hnd.1
      rw [← hr2]
      exact List.mem_map.mpr ⟨(h, c), hm1, rfl⟩
    · exact ih h c c2 hnd.2 hm1 hm2

/-- Helper: an indexer pass (completed or aborted) keeps every existing row
untouched and keeps the hashes distinct. -/
theorem processImgs_preserves (fs : FileSys) (md5 : Digest) :
    ∀ (files : List String) (db : DB),
    (db.map Prod.fst).Nodup →
    (((processImgs fs md5 db files).db.map Prod.fst).Nodup ∧
      ∀ r ∈ db, r ∈ (processImgs fs md5 db files).db) := by
  intro files
  induction files with
  | nil => intro db hnd; exact ⟨hnd, fun r hr => hr⟩
  | cons f fl ih =>
    intro db hnd
    cases himg : isImg f with
    | false =>
      rw [processImgs_skip fs md5 db f fl himg]
      exact ih db hnd
    | true =>
      cases hfs : fs f with
      | none =>
        rw [processImgs_readError fs md5 db f fl himg hfs]
        exact ⟨hnd, fun r hr => hr⟩
      | some b =>
        cases hex : hashExist db (md5 b) with
        | true =>
          rw [processImgs_dup fs md5 db f fl b himg hfs hex]
          exact ih db hnd
        | false =>
          rw [processImgs_insert fs md5 db f fl b himg hfs hex]
          rw [insertOrReplace_fresh db (md5 b) (classifyImg f) hex]
          have hnotin : md5 b ∉ db.map Prod.fst := by
            intro hin
            obtain ⟨r, hr, hrfst⟩ := List.mem_map.mp hin
            have : hashExist db (md5 b) = true := (hashExist_iff db (md5 b)).mpr ⟨r, hr, hrfst⟩
            rw [this] at hex
            exact Bool.noConfusion hex
          have hnd2 : ((db ++ [(md5 b, classifyImg f)]).map Prod.fst).Nodup := by
            rw [List.map_append, List.nodup_append]
            refine ⟨hnd, by simp, ?_⟩
            intro x hx hx2
            simp only [List.map_cons, List.map_nil, List.mem_singleton] at hx2
            subst hx2
            exact hnotin hx
          obtain ⟨ha, hb⟩ := ih (db ++ [(md5 b, classifyImg f)]) hnd2
          exact ⟨ha, fun r hr => hb r (List.mem_append_left _ hr)⟩

/-- C6: a record already in the store is never changed by an indexer pass,
whether the pass completes or aborts: the row survives untouched and no row
with the same hash and a different label ever appears - indexing a file
whose hash is already present is a silent no-op. -/
theorem c6_store_record_immutable (fs : FileSys) (md5 : Digest) (db : DB)
    (files : List String) (h c : String)
    (hnd : (db.map Prod.fst).Nodup) (hmem : (h, c) ∈ db) :
    (h, c) ∈ (processImgs fs md5 db files).db ∧
    ∀ c2, (h, c2) ∈ (processImgs fs md5 db files).db → c2 = c := by
  obtain ⟨hndr, hpres⟩ := processImgs_preserves fs md5 files db hnd
  have h1 := hpres (h, c) hmem
  exact ⟨h1, fun c2 hc2 => keys_nodup_unique_label _ h c c2 hndr h1 hc2⟩

/-- Witness for C6: a pre-existing record with a foreign label survives a
pass over a concrete directory, and keeps its label uniquely. -/
theorem c6_witness :
    ("h9", "old") ∈ (processImgs fsC md5C [("h9", "old")] ["/r/a.png"]).db ∧
    ∀ c2, ("h9", c2) ∈ (processImgs fsC md5C [("h9", "old")] ["/r/a.png"]).db → c2 = "old" :=
  c6_store_record_immutable fsC md5C [("h9", "old")] ["/r/a.png"] "h9" "old"
    (by decide) (by decide)

/-- Helper: a read error on one image file aborts the indexer pass, leaving
exactly the table the files before it produced. -/
theorem processImgs_abort (fs : FileSys) (md5 : Digest) (db db1 : DB)
    (pre post : List String) (bad : String)
    (h1 : processImgs fs md5 db pre = .ok db1)
    (h2 : isImg bad = true) (h3 : fs bad = none) :
    processImgs fs md5 db (pre ++ bad :: post) = .ioError db1 := by
  rw [processImgs_append, h1]
  show processImgs fs md5 db1 (bad :: post) = .ioError db1
  exact processImgs_readError fs md5 db1 bad post h2 h3

/-- C8: an unreadable file makes the Hasher fail with a propagated I/O
error, and the error aborts the whole indexing pass: the run ends in the
error state whose table holds exactly what the files before the failure
produced - the rest of the input is never processed. -/
theorem c8_hasher_error_aborts_pass (fs : FileSys) (md5 : Digest) (db db1 : DB)
    (pre post : List String) (bad : String)
    (h1 : processImgs fs md5 db pre = .ok db1)
    (h2 : isImg bad = true) (h3 : fs bad = none) :
    genHash fs md5 bad = none ∧
    processImgs fs md5 db (pre ++ bad :: post) = .ioError db1 :=
  ⟨by simp [genHash, h3], processImgs_abort fs md5 db db1 pre post bad h1 h2 h3⟩

/-- Witness for C8: one readable file, then an unreadable one, then another
candidate: the pass aborts after the first file with only its record stored. -/
theorem c8_witness :
    genHash fsD md5C "/r/d.png" = none ∧
    processImgs fsD md5C [] (["/r/a.png"] ++ "/r/d.png" :: ["/r/b.png"]) =
      .ioError [("h0", "thing")] :=
  c8_hasher_error_aborts_pass fsD md5C [] [("h0", "thing")] ["/r/a.png"] ["/r/b.png"]
    "/r/d.png" (by decide) (by decide) (by decide)

/-- C10: the image test looks only at the path text, so a directory whose
name ends in an allow-listed extension is yielded by the Scanner like a
file; hashing it then fails with a propagated I/O error and the indexing
pass over the scanned paths aborts with the table produced before it. -/
theorem c10_directory_yielded_then_aborts (fs : FileSys) (md5 : Digest)
    (db db1 : DB) (tree pre post : List String) (d : String)
    (hmem : d ∈ tree) (hext : isImg d = true) (hdir : fs d = none)
    (hsplit : imgPaths tree = pre ++ d :: post)
    (hpre : processImgs fs md5 db pre = .ok db1) :
    d ∈ imgPaths tree ∧ genHash fs md5 d = none ∧
    processImgs fs md5 db (imgPaths tree) = .ioError db1 := by
  refine ⟨?_, by simp [genHash, hdir], ?_⟩
  · unfold imgPaths
    rw [List.mem_filter]
    exact ⟨hmem, hext⟩
  · rw [hsplit]
    exact processImgs_abort fs md5 db db1 pre post d hpre hext hdir

/-- Witness for C10: a tree holding a readable png file, a directory named
like a png, and a txt file - the directory is yielded and the pass aborts. -/
theorem c10_witness :
    "/r/x.png" ∈ imgPaths ["/r/a.png", "/r/x.png", "/r/b.txt"] ∧
    genHash fsD md5C "/r/x.png" = none ∧
    processImgs fsD md5C [] (imgPaths ["/r/a.png", "/r/x.png", "/r/b.txt"]) =
      .ioError [("h0", "thing")] :=
  c10_directory_yielded_then_aborts fsD md5C [] [("h0", "thing")]
    ["/r/a.png", "/r/x.png", "/r/b.txt"] ["/r/a.png"] [] "/r/x.png"
    (by decide) (by decide) (by decide) (by decide) (by decide)

/-- Helper: ensuring a key preserves every resolved (label, path) pair. -/
theorem dictMem_dictEnsureKey (d : ClassDict) (k c p : String)
    (h : dictMem d c p) : dictMem (dictEnsureKey d k) c p := by
  obtain ⟨e, he, hec, hep⟩ := h
  unfold dictEnsureKey
  split
  · exact ⟨e, he, hec, hep⟩
  · exact ⟨e, List.mem_append_left _ he, hec, hep⟩

/-- Helper: appending a path under any key preserves every resolved
(label, path) pair. -/
theorem dictMem_dictAppend_mono (d : ClassDict) (k q c p : String)
    (h : dictMem d c p) : dictMem (dictAppend d k q) c p := by
  obtain ⟨e, he, hec, hep⟩ := h
  refine ⟨if e.1 = k then (e.1, e.2 ++ [q]) else e, List.mem_map_of_mem _ he, ?_, ?_⟩
  · split <;> exact hec
  · split
    · exact List.mem_append_left _ hep
    · exact hep

/-- Helper: after the ensure step the key is present. -/
theorem dictHasKey_dictEnsureKey (d : ClassDict) (k : String) :
    dictHasKey (dictEnsureKey d k) k = true := by
  unfold dictEnsureKey
  split
  · assumption
  · unfold dictHasKey
    rw [List.any_append]
    simp

/-- Helper: appending a path under a present key makes it resolved under
that key. -/
theorem dictMem_dictAppend_self (d : ClassDict) (k p : String)
    (hk : dictHasKey d k = true) : dictMem (dictAppend d k p) k p := by
  unfold dictHasKey at hk
  rw [List.any_eq_true] at hk
  obtain ⟨e, he, hek⟩ := hk
  have hek2 : e.1 = k := by simpa using hek
  refine ⟨(e.1, e.2 ++ [p]), ?_, hek2, by simp⟩
  unfold dictAppend
  exact List.mem_map.mpr ⟨e, he, by simp [hek2]⟩

/-- Helper: a (label, path) pair resolved in the accumulator stays resolved
through the rest of the reconciler loop: dictionary entries only grow. -/
theorem fileByClassAux_dictMem_mono (fs : FileSys) (md5 : Digest) :
    ∀ (rows : List (String × String)) (files : List String) (acc d : ClassDict)
    (c p : String),
    dictMem acc c p → fileByClassAux fs md5 files acc rows = some d →
    dictMem d c p := by
  intro rows
  induction rows with
  | nil =>
    intro files acc d c p hm hrun
    obtain rfl : acc = d := Option.some.inj hrun
    exact hm
  | cons row rows ih =>
    intro files acc d c p hm hrun
    obtain ⟨c2, t⟩ := row
    rw [fileByClassAux_cons] at hrun
    cases hdet : detectFileWithHash fs md5 files t with
    | ioError => rw [hdet] at hrun; exact absurd hrun (by simp)
    | notFound =>
      rw [hdet] at hrun
      exact ih [] _ d c p (dictMem_dictEnsureKey acc c2 c p hm) hrun
    | found q rest =>
      rw [hdet] at hrun
      exact ih rest _ d c p
        (dictMem_dictAppend_mono _ c2 q c p (dictMem_dictEnsureKey acc c2 c p hm)) hrun

/-- C1 (amended): when a stored (label, hash) pair comes up for lookup, the
search linearly scans the part of the current enumeration not yet consumed
by earlier lookups; if a matching image file is present in that remainder,
the first such file is found (all earlier candidates hash differently or are
skipped as non-images) and its path is resolved under the label in the final
mapping.  A pair whose file lies in the already-consumed part is not covered:
the original claim fails for it, as the counterexample shows. -/
theorem c1_reconciler_scan_amended (fs : FileSys) (md5 : Digest)
    (files : List String) (acc : ClassDict) (rows : List (String × String))
    (c t : String) (d : ClassDict)
    (hread : ∀ f ∈ files, isImg f = true → (fs f).isSome = true)
    (hmatch : ∃ f ∈ files, isImg f = true ∧ genHash fs md5 f = some t)
    (hrun : fileByClassAux fs md5 files acc ((c, t) :: rows) = some d) :
    ∃ p pre rest, files = pre ++ p :: rest ∧ isImg p = true ∧
      genHash fs md5 p = some t ∧
      (∀ q ∈ pre, isImg q = true → genHash fs md5 q ≠ some t) ∧
      dictMem d c p := by
  obtain ⟨p, rest, hdet⟩ :=
    detectFileWithHash_found_of_match fs md5 files t hread hmatch
  obtain ⟨pre, hfiles, hpimg, hpg, hpre⟩ :=
    detectFileWithHash_found_decomp fs md5 files t p rest hdet
  refine ⟨p, pre, rest, hfiles, hpimg, hpg, hpre, ?_⟩
  rw [fileByClassAux_cons, hdet] at hrun
  exact fileByClassAux_dictMem_mono fs md5 rows rest _ d c p
    (dictMem_dictAppend_self _ c p (dictHasKey_dictEnsureKey acc c)) hrun

/-- Counterexample to C1 as stated: a.png is present in the current
traversal and matches the stored hash h0, yet the pair (thing, h0) is not
resolved, because the earlier lookup for h1 consumed the whole generator -
resolution does depend on the order the store returns the records. -/
theorem c1_counterexample :
    isImg "/r/a.png" = true ∧
    genHash fsC md5C "/r/a.png" = some "h0" ∧
    fileByClass fsC md5C [("thing", "h1"), ("thing", "h0")] ["/r/a.png", "/r/b.png"] =
      some [("thing", ["/r/b.png"])] ∧
    ¬ dictMem [("thing", ["/r/b.png"])] "thing" "/r/a.png" := by
  exact ⟨by decide, by decide, by decide, by decide⟩

/-- Witness for the amended C1 at a concrete input: the lookup for h0 with
the full enumeration unconsumed resolves a.png, the first matching file. -/
theorem c1_witness :
    ∃ p pre rest, ["/r/a.png", "/r/b.png"] = pre ++ p :: rest ∧ isImg p = true ∧
      genHash fsC md5C p = some "h0" ∧
      (∀ q ∈ pre, isImg q = true → genHash fsC md5C q ≠ some "h0") ∧
      dictMem [("thing", ["/r/a.png"])] "thing" p :=
  c1_reconciler_scan_amended fsC md5C ["/r/a.png", "/r/b.png"] [] [] "thing" "h0"
    [("thing", ["/r/a.png"])] (by decide) (by decide) (by decide)

/-- Helper: membership testing distributes over table append. -/
theorem hashExist_append (db1 db2 : DB) (x : String) :
    hashExist (db1 ++ db2) x = (hashExist db1 x || hashExist db2 x) :=
  List.any_append

/-- Helper: indexing a list of image files that are all readable, with
pairwise distinct hashes, all fresh with respect to the starting table,
appends one (hash, label) row per file, in traversal order. -/
theorem processImgs_all_fresh (fs : FileSys) (md5 : Digest) (hv : String → String) :
    ∀ (files : List String) (db : DB),
    (∀ f ∈ files, isImg f = true) →
    (∀ f ∈ files, genHash fs md5 f = some (hv f)) →
    List.Pairwise (fun f g => hv f ≠ hv g) files →
    (∀ f ∈ files, hashExist db (hv f) = false) →
    processImgs fs md5 db files = .ok (db ++ files.map (fun f => (hv f, classifyImg f))) := by
  intro files
  induction files with
  | nil => intro db _ _ _ _; rw [List.map_nil, List.append_nil]; rfl
  | cons f fl ih =>
    intro db himg hgen hpair hfresh
    have hfimg : isImg f = true := himg f (by simp)
    have hfgen : genHash fs md5 f = some (hv f) := hgen f (by simp)
    obtain ⟨b, hfs, hmb⟩ : ∃ b, fs f = some b ∧ md5 b = hv f := by
      unfold genHash at hfgen
      cases hfs : fs f with
      | none => rw [hfs] at hfgen; simp at hfgen
      | some b =>
        rw [hfs] at hfgen
        exact ⟨b, rfl, by simpa using hfgen⟩
    have hexf : hashExist db (md5 b) = false := by
      rw [hmb]; exact hfresh f (by simp)
    rw [processImgs_insert fs md5 db f fl b hfimg hfs hexf]
    rw [insertOrReplace_fresh db (md5 b) (classifyImg f) hexf, hmb]
    have hstep := ih (db ++ [(hv f, classifyImg f)])
      (fun g hg => himg g (List.mem_cons_of_mem f hg))
      (fun g hg => hgen g (List.mem_cons_of_mem f hg))
      (List.Pairwise.of_cons hpair)
      (fun g hg => by
        rw [hashExist_append]
        have h1 : hashExist db (hv g) = false := hfresh g (List.mem_cons_of_mem f hg)
        have h2 : hashExist [(hv f, classifyImg f)] (hv g) = false := by
          have hne : hv f ≠ hv g := (List.pairwise_cons.mp hpair).1 g hg
          unfold hashExist
          simp [hne]
        rw [h1, h2]
        rfl)
    rw [hstep]
    rw [List.map_cons, List.append_assoc]
    rfl

/-- Helper: the insertion-order SELECT of the table built from a file list. -/
theorem selectImageClassHash_map (hv : String → String) (files : List String) :
    selectImageClassHash (files.map (fun f => (hv f, classifyImg f))) =
      files.map (fun f => (classifyImg f, hv f)) := by
  unfold selectImageClassHash
  rw [List.map_map]
  rfl

/-- Helper: reconciling rows listed in the same order as the traversal, one
row per file with its own hash, resolves every file: each lookup finds its
file at the head of the unconsumed remainder. -/
theorem fileByClassAux_roundtrip (fs : FileSys) (md5 : Digest) (hv : String → String) :
    ∀ (files : List String) (acc : ClassDict),
    (∀ f ∈ files, isImg f = true) →
    (∀ f ∈ files, genHash fs md5 f = some (hv f)) →
    ∃ d, fileByClassAux fs md5 files acc
        (files.map (fun f => (classifyImg f, hv f))) = some d ∧
      (∀ c p, dictMem acc c p → dictMem d c p) ∧
      ∀ f ∈ files, dictMem d (classifyImg f) f := by
  intro files
  induction files with
  | nil =>
    intro acc _ _
    exact ⟨acc, rfl, fun c p hm => hm, by simp⟩
  | cons f fl ih =>
    intro acc himg hgen
    have hfimg : isImg f = true := himg f (by simp)
    have hfgen : genHash fs md5 f = some (hv f) := hgen f (by simp)
    obtain ⟨b, hfs, hmb⟩ : ∃ b, fs f = some b ∧ md5 b = hv f := by
      unfold genHash at hfgen
      cases hfs : fs f with
      | none => rw [hfs] at hfgen; simp at hfgen
      | some b =>
        rw [hfs] at hfgen
        exact ⟨b, rfl, by simpa using hfgen⟩
    have hdet : detectFileWithHash fs md5 (f :: fl) (hv f) = .found f fl := by
      simp [detectFileWithHash, genHash, hfimg, hfs, hmb]
    obtain ⟨d, hd, hmono, hall⟩ := ih
      (dictAppend (dictEnsureKey acc (classifyImg f)) (classifyImg f) f)
      (fun g hg => himg g (List.mem_cons_of_mem f hg))
      (fun g hg => hgen g (List.mem_cons_of_mem f hg))
    refine ⟨d, ?_, ?_, ?_⟩
    · rw [List.map_cons, fileByClassAux_cons, hdet]
      exact hd
    · intro c p hm
      exact hmono c p
        (dictMem_dictAppend_mono _ _ _ _ _ (dictMem_dictEnsureKey _ _ _ _ hm))
    · intro g hg
      rcases List.mem_cons.mp hg with hgf | hgfl
      · subst hgf
        exact hmono (classifyImg g) g
          (dictMem_dictAppend_self _ (classifyImg g) g
            (dictHasKey_dictEnsureKey acc (classifyImg g)))
      · exact hall g hgfl

/-- C2 (amended): a file indexed and left untouched is resolved back to its
original path under its original label by the next reconciliation, for any
number of files (readable images with pairwise distinct hashes), provided
the store enumerates its records in the same order as the files occur in the
traversal (as insertion order does); with an arbitrary enumeration order the
round-trip can fail, as the counterexample shows. -/
theorem c2_roundtrip_insertion_order (fs : FileSys) (md5 : Digest)
    (files : List String) (db : DB)
    (himg : ∀ f ∈ files, isImg f = true)
    (hread : ∀ f ∈ files, (fs f).isSome = true)
    (hinj : ∀ f ∈ files, ∀ g ∈ files, genHash fs md5 f = genHash fs md5 g → f = g)
    (hnd : files.Nodup)
    (hrun : processImgs fs md5 [] files = .ok db) :
    ∃ d, fileByClass fs md5 (selectImageClassHash db) files = some d ∧
      ∀ f ∈ files, dictMem d (classifyImg f) f := by
  have hgen2 : ∀ f ∈ files, genHash fs md5 f = some ((genHash fs md5 f).getD "") := by
    intro f hf
    have hs := hread f hf
    unfold genHash
    cases hfs : fs f with
    | none => rw [hfs] at hs; simp at hs
    | some b => simp
  have hpair : List.Pairwise
      (fun f g => (genHash fs md5 f).getD "" ≠ (genHash fs md5 g).getD "") files := by
    refine List.Pairwise.imp_of_mem ?_ hnd
    intro a b ha hb hne heq
    apply hne
    apply hinj a ha b hb
    rw [hgen2 a ha, hgen2 b hb, heq]
  have hfresh : ∀ f ∈ files, hashExist [] ((genHash fs md5 f).getD "") = false :=
    fun f _ => rfl
  have hall := processImgs_all_fresh fs md5 (fun f => (genHash fs md5 f).getD "")
    files [] himg hgen2 hpair hfresh
  rw [hrun] at hall
  have hdb : db = files.map (fun f => ((genHash fs md5 f).getD "", classifyImg f)) := by
    have := RunResult.ok.inj hall
    simpa using this
  obtain ⟨d, hd, _, hres⟩ := fileByClassAux_roundtrip fs md5
    (fun f => (genHash fs md5 f).getD "") files [] himg hgen2
  refine ⟨d, ?_, hres⟩
  unfold fileByClass
  rw [hdb, selectImageClassHash_map]
  exact hd

/-- Counterexample to C2 as stated: both files are indexed and untouched on
disk, but when the store enumerates the two records in reverse insertion
order, a.png is not resolved at all - the round-trip does depend on the
enumeration order. -/
theorem c2_counterexample :
    processImgs fsC md5C [] ["/r/a.png", "/r/b.png"] =
      .ok [("h0", "thing"), ("h1", "thing")] ∧
    fileByClass fsC md5C
      (selectImageClassHash [("h0", "thing"), ("h1", "thing")]).reverse
      ["/r/a.png", "/r/b.png"] = some [("thing", ["/r/b.png"])] ∧
    ¬ dictMem [("thing", ["/r/b.png"])] "thing" "/r/a.png" := by
  exact ⟨by decide, by decide, by decide⟩

/-- Witness for the amended C2 at a concrete two-file input: with records
enumerated in insertion order, both files resolve under their label. -/
theorem c2_witness :
    ∃ d, fileByClass fsC md5C
        (selectImageClassHash [("h0", "thing"), ("h1", "thing")])
        ["/r/a.png", "/r/b.png"] = some d ∧
      ∀ f ∈ ["/r/a.png", "/r/b.png"], dictMem d (classifyImg f) f :=
  c2_roundtrip_insertion_order fsC md5C ["/r/a.png", "/r/b.png"]
    [("h0", "thing"), ("h1", "thing")]
    (by decide) (by decide) (by decide) (by decide) (by decide)

/-- Helper: the flattened paths of a dictionary with a head entry. -/
theorem dictPaths_cons (e : String × List String) (d : ClassDict) :
    dictPaths (e :: d) = e.2 ++ dictPaths d := by
  simp [dictPaths]

/-- Helper: the unfolding equation of the append step on a head entry. -/
theorem dictAppend_cons (e : String × List String) (d : ClassDict) (k p : String) :
    dictAppend (e :: d) k p =
      (if e.1 = k then (e.1, e.2 ++ [p]) else e) :: dictAppend d k p := rfl

/-- Helper: appending a path under a key leaves the key sequence unchanged. -/
theorem dictAppend_keys (d : ClassDict) (k p : String) :
    (dictAppend d k p).map Prod.fst = d.map Prod.fst := by
  unfold dictAppend
  rw [List.map_map]
  apply List.map_congr_left
  intro e _
  by_cases hek : e.1 = k
  · simp [Function.comp, hek]
  · simp [Function.comp, hek]

/-- Helper: ensuring a key preserves distinctness of the keys. -/
theorem dictEnsureKey_keys_nodup (d : ClassDict) (k : String)
    (hnd : (d.map Prod.fst).Nodup) : ((dictEnsureKey d k).map Prod.fst).Nodup := by
  by_cases hk : dictHasKey d k = true
  · unfold dictEnsureKey
    rw [if_pos hk]
    exact hnd
  · unfold dictEnsureKey
    rw [if_neg hk]
    rw [List.map_append, List.nodup_append]
    refine ⟨hnd, by simp, ?_⟩
    intro x hx hx2
    simp only [List.map_cons, List.map_nil, List.mem_singleton] at hx2
    subst hx2
    apply hk
    unfold dictHasKey
    rw [List.any_eq_true]
    obtain ⟨e, he, hef⟩ := List.mem_map.mp hx
    exact ⟨e, he, by simp [hef]⟩

/-- Helper: appending under a key that no entry carries changes nothing. -/
theorem dictAppend_no_key (d : ClassDict) (k p : String)
    (h : ∀ e ∈ d, ¬ e.1 = k) : dictAppend d k p = d := by
  induction d with
  | nil => rfl
  | cons e dl ih =>
    rw [dictAppend_cons]
    rw [if_neg (h e (by simp))]
    rw [ih (fun x hx => h x (List.mem_cons_of_mem e hx))]

/-- Helper: with distinct keys and the key present, appending a path under
the key permutes the dictionary paths into the new path followed by the old
ones. -/
theorem dictPaths_dictAppend_perm (k p : String) :
    ∀ (d : ClassDict), (d.map Prod.fst).Nodup → dictHasKey d k = true →
    (dictPaths (dictAppend d k p)).Perm (p :: dictPaths d) := by
  intro d
  induction d with
  | nil => intro _ hk; simp [dictHasKey] at hk
  | cons e dl ih =>
    intro hnd hk
    rw [List.map_cons, List.nodup_cons] at hnd
    rw [dictAppend_cons]
    by_cases hek : e.1 = k
    · have hnok : ∀ x ∈ dl, ¬ x.1 = k := by
        intro x hx hxk
        apply hnd.1
        rw [hek, ← hxk]
        exact List.mem_map_of_mem _ hx
      rw [if_pos hek, dictAppend_no_key dl k p hnok]
      rw [dictPaths_cons, dictPaths_cons]
      rw [List.append_assoc, List.singleton_append]
      exact List.perm_middle
    · have hk2 : dictHasKey dl k = true := by
        unfold dictHasKey at hk
        rw [List.any_cons] at hk
        rcases Bool.or_eq_true_iff.mp hk with h1 | h1
        · exact absurd (by simpa using h1) hek
        · exact h1
      rw [if_neg hek, dictPaths_cons, dictPaths_cons]
      exact (List.Perm.append_left e.2 (ih hnd.2 hk2)).trans List.perm_middle

/-- Helper: the per-call invariant behind C9: with distinct candidate files
disjoint from the paths already resolved, the reconciler loop keeps all
resolved paths distinct - each found file is removed from the remainder
handed to later lookups. -/
theorem fileByClassAux_nodup (fs : FileSys) (md5 : Digest) :
    ∀ (rows : List (String × String)) (files : List String) (acc d : ClassDict),
    files.Nodup →
    (acc.map Prod.fst).Nodup →
    (dictPaths acc).Nodup →
    (∀ q ∈ dictPaths acc, q ∉ files) →
    fileByClassAux fs md5 files acc rows = some d →
    (dictPaths d).Nodup := by
  intro rows
  induction rows with
  | nil =>
    intro files acc d _ _ hpn _ hrun
    obtain rfl : acc = d := Option.some.inj hrun
    exact hpn
  | cons row rows ih =>
    intro files acc d hfn hkn hpn hdisj hrun
    obtain ⟨c, t⟩ := row
    rw [fileByClassAux_cons] at hrun
    cases hdet : detectFileWithHash fs md5 files t with
    | ioError => rw [hdet] at hrun; exact absurd hrun (by simp)
    | notFound =>
      rw [hdet] at hrun
      exact ih [] (dictEnsureKey acc c) d (by simp)
        (dictEnsureKey_keys_nodup acc c hkn)
        (by rw [dictPaths_dictEnsureKey]; exact hpn)
        (by simp)
        hrun
    | found p rest =>
      rw [hdet] at hrun
      obtain ⟨pre, hfiles, _, _, _⟩ :=
        detectFileWithHash_found_decomp fs md5 files t p rest hdet
      have htail : (p :: rest).Nodup := by
        rw [hfiles] at hfn
        exact List.Nodup.of_append_right hfn
      have hrestnd : rest.Nodup := (List.nodup_cons.mp htail).2
      have hpnotrest : p ∉ rest := (List.nodup_cons.mp htail).1
      have hpfiles : p ∈ files := by rw [hfiles]; simp
      have hkn1 : ((dictEnsureKey acc c).map Prod.fst).Nodup :=
        dictEnsureKey_keys_nodup acc c hkn
      have hperm := dictPaths_dictAppend_perm c p (dictEnsureKey acc c) hkn1
        (dictHasKey_dictEnsureKey acc c)
      have hpaths1 := dictPaths_dictEnsureKey acc c
      apply ih rest (dictAppend (dictEnsureKey acc c) c p) d hrestnd
        (by rw [dictAppend_keys]; exact hkn1)
        (by
          rw [hperm.nodup_iff, List.nodup_cons]
          constructor
          · rw [hpaths1]
            intro hp
            exact hdisj p hp hpfiles
          · rw [hpaths1]
            exact hpn)
        (by
          intro q hq hqrest
          rcases List.mem_cons.mp (hperm.mem_iff.mp hq) with hqp | hqacc
          · subst hqp
            exact hpnotrest hqrest
          · rw [hpaths1] at hqacc
            exact hdisj q hqacc
              (by rw [hfiles]
                  exact List.mem_append_right _ (List.mem_cons_of_mem p hqrest)))
        hrun

/-- C9: in the mapping one reconciliation call returns, every file path
occurs at most once across all lists of all labels: the candidate sequence
is consumed monotonically, so no current file can be resolved for two
different stored records (the traversal lists each path once). -/
theorem c9_each_path_resolved_at_most_once (fs : FileSys) (md5 : Digest)
    (rows : List (String × String)) (files : List String) (d : ClassDict)
    (hnd : files.Nodup)
    (hrun : fileByClass fs md5 rows files = some d) :
    (dictPaths d).Nodup :=
  fileByClassAux_nodup fs md5 rows files [] d hnd (by simp)
    (by simp [dictPaths]) (by simp [dictPaths]) hrun

/-- Witness for C9: two records, two files, both resolved, and the resolved
path list holds no duplicate. -/
theorem c9_witness :
    (dictPaths [("thing", ["/r/a.png", "/r/b.png"])]).Nodup :=
  c9_each_path_resolved_at_most_once fsC md5C [("thing", "h0"), ("thing", "h1")]
    ["/r/a.png", "/r/b.png"] [("thing", ["/r/a.png", "/r/b.png"])]
    (by decide) (by decide)

end Pictopy
